import Mathlib

/-!
Shallow embedding of the spherical-coordinate utilities of
`utils/utils.py` (numpy, Python 2) over exact real arithmetic.

Conventions used throughout the embedding:
* numpy floating point numbers are modelled as real numbers (`ℝ`);
* numpy 1-d arrays are modelled as `List ℝ`; an N×3 array of vectors is a
  `List (ℝ × ℝ × ℝ)`;
* `np.arctan2(a, b)` is the mathematical `atan2` with `a` the sine-side
  (ordinate) argument and `b` the cosine-side (abscissa) argument; on the
  reals (no signed zero) its value is the argument of the complex number
  `b + a*I`, with range `(-π, π]` and `arctan2 0 0 = 0`;
* operations that raise a Python/numpy exception are modelled by `Option`,
  the exception being `none`;
* numpy in-place updates (`arr[mask] = ...`, `arr += ...`) mutate the
  caller's array; functions whose Python counterpart can mutate an argument
  array additionally return the final contents of the caller's arrays.
-/

open Real

noncomputable section

/-- `np.arctan2 y x` (note the numpy argument order: ordinate first):
the angle in `(-π, π]` of the point `(x, y)`, and `0` at the origin.
This is exactly `Complex.arg (x + y*I)`. -/
def arctan2 (y x : ℝ) : ℝ := Complex.arg ⟨x, y⟩

/-- Source: `rotation_matrix(theta)` — the planar rotation matrix
`[[cos θ, -sin θ], [sin θ, cos θ]]`. -/
def rotation_matrix (theta : ℝ) : Matrix (Fin 2) (Fin 2) ℝ :=
  !![Real.cos theta, -Real.sin theta; Real.sin theta, Real.cos theta]

/-- Source: `angle_between(ang1, ang2, sign=True)` (scalar case):
`d = (ang1 - ang2 + np.pi) % (2 * np.pi) - np.pi`, then `abs` if `sign` is
false.  Python's `%` with a positive divisor returns a value in
`[0, divisor)`, i.e. `a % b = a - b * ⌊a / b⌋`. -/
def angle_between (ang1 ang2 : ℝ) (sign : Bool) : ℝ :=
  let d := (ang1 - ang2 + π) - 2 * π * ⌊(ang1 - ang2 + π) / (2 * π)⌋ - π
  if sign then d else |d|

/-- Euclidean norm of a 3-vector: `numpy.linalg.norm(vec)` for a flat
3-element array. -/
def norm3 (v : ℝ × ℝ × ℝ) : ℝ :=
  Real.sqrt (v.1 ^ 2 + v.2.1 ^ 2 + v.2.2 ^ 2)

/-- Source: the computational core of `sph2vec(theta, phi, rho)` after
unpacking: `x = rho*(sin(phi)*cos(theta))`, `y = rho*(cos(phi)*cos(theta))`,
`z = rho*sin(theta)`. -/
def sph2vec3 (theta phi rho : ℝ) : ℝ × ℝ × ℝ :=
  (rho * (Real.sin phi * Real.cos theta),
   rho * (Real.cos phi * Real.cos theta),
   rho * Real.sin theta)

/-- Scalar iteration `while phi < phi_min: phi += 2*pi` (the first azimuth
loop of `sphadj` on a 0-d value). -/
def foldUp (lo x : ℝ) : ℝ :=
  if x < lo then foldUp lo (x + 2 * π) else x
termination_by (⌊(lo - x) / (2 * π)⌋ + 1).toNat
decreasing_by
  rename_i h
  have h1 : (0:ℝ) < lo - x := by linarith
  have hfl : ⌊(lo - (x + 2 * π)) / (2 * π)⌋ = ⌊(lo - x) / (2 * π)⌋ - 1 := by
    have : (lo - (x + 2 * π)) / (2 * π) = (lo - x) / (2 * π) - 1 := by
      field_simp
      ring
    rw [this]
    exact_mod_cast Int.floor_sub_int ((lo - x) / (2 * π)) 1
  have h0 : 0 ≤ ⌊(lo - x) / (2 * π)⌋ := Int.floor_nonneg.2 (by positivity)
  omega

/-- Scalar iteration `while phi >= phi_max: phi -= 2*pi` (the second azimuth
loop of `sphadj` on a 0-d value). -/
def foldDown (hi x : ℝ) : ℝ :=
  if hi ≤ x then foldDown hi (x - 2 * π) else x
termination_by (⌊(x - hi) / (2 * π)⌋ + 1).toNat
decreasing_by
  rename_i h
  have h1 : (0:ℝ) ≤ x - hi := by linarith
  have hfl : ⌊(x - 2 * π - hi) / (2 * π)⌋ = ⌊(x - hi) / (2 * π)⌋ - 1 := by
    have : (x - 2 * π - hi) / (2 * π) = (x - hi) / (2 * π) - 1 := by
      field_simp
      ring
    rw [this]
    exact_mod_cast Int.floor_sub_int ((x - hi) / (2 * π)) 1
  have h0 : 0 ≤ ⌊(x - hi) / (2 * π)⌋ := Int.floor_nonneg.2 (by positivity)
  omega

/-- Elevation branch of `sphadj` for 0-d (scalar) `theta` and a supplied
scalar `phi`.  For scalars `.all()` and `.any()` coincide with the plain
comparison, so only the first two branches of the `if`/`elif` chain are
reachable; `np.all(phi)` on a scalar is the nonzero test. -/
def eleAdj1 (theta phi tmin tmax : ℝ) : ℝ × ℝ :=
  if tmax ≤ theta then
    (π - theta, if phi ≠ 0 then phi + π else phi)
  else if theta < tmin then
    (-π - theta, if phi ≠ 0 then phi + π else phi)
  else (theta, phi)

/-- Azimuth loops of `sphadj` for a 0-d (scalar) `phi`.  The first two
(`.all()`) loops act on the scalar.  If, after them, the value is still
below `phi_min` (possible only when `phi_max - phi_min < 2*π`), the third
loop's guard `(phi < phi_min).any()` holds and its body
`phi[phi < phi_min] += 2*np.pi` raises a `TypeError` on a 0-d float —
modelled as `none`.  `foldDown` always ends below `phi_max`, so the fourth
loop never fires. -/
def aziAdj1 (phi pmin pmax : ℝ) : Option ℝ :=
  let q := foldDown pmax (foldUp pmin phi)
  if q < pmin then none else some q

/-- `sphadj(theta, phi, ...)` on scalar inputs: elevation branch then
azimuth loops; the returned pair is `(theta, phi)`. -/
def sphadj1 (theta phi tmin tmax pmin pmax : ℝ) : Option (ℝ × ℝ) :=
  let e := eleAdj1 theta phi tmin tmax
  match aziAdj1 e.2 pmin pmax with
  | none => none
  | some q => some (e.1, q)

/-- `vec2sph(vec)` on a single (1-d) 3-vector: `rho = norm(vec)` with `0`
replaced by `1`, `v = vec / rho`, `phi = np.arctan2(v[0], v[1])`,
`theta = pi/2 - np.arccos(v[2])`, then `sphadj(theta, phi)` with the
default bounds; returns the triple `(theta, phi, rho)`. -/
def vec2sphSingle (vec : ℝ × ℝ × ℝ) : Option (ℝ × ℝ × ℝ) :=
  let rho0 := norm3 vec
  let rho := if rho0 = 0 then 1 else rho0
  let v : ℝ × ℝ × ℝ := (vec.1 / rho, vec.2.1 / rho, vec.2.2 / rho)
  let phi := arctan2 v.1 v.2.1
  let theta := π / 2 - Real.arccos v.2.2
  match sphadj1 theta phi (-(π / 2)) (π / 2) (-π) π with
  | none => none
  | some (t, p) => some (t, p, rho)

/-- Number of iterations an element `x` needs in a `+= 2*pi` loop before
reaching `lo` (termination measure only). -/
def upSteps (lo x : ℝ) : ℕ := (⌊(lo - x) / (2 * π)⌋ + 1).toNat

/-- Number of iterations an element `x` needs in a `-= 2*pi` loop before
dropping below `hi` (termination measure only). -/
def downSteps (hi x : ℝ) : ℕ := (⌊(x - hi) / (2 * π)⌋ + 1).toNat

/-- Body of azimuth loop 3 of `sphadj`:
`phi[phi < phi_min] += 2*np.pi` on an array. -/
def stepUp (lo : ℝ) (l : List ℝ) : List ℝ :=
  l.map (fun x => if x < lo then x + 2 * π else x)

/-- Body of azimuth loop 4 of `sphadj`:
`phi[phi >= phi_max] -= 2*np.pi` on an array. -/
def stepDown (hi : ℝ) (l : List ℝ) : List ℝ :=
  l.map (fun x => if hi ≤ x then x - 2 * π else x)

/-- Azimuth loop 1 of `sphadj` on an array:
`while (phi < phi_min).all(): phi += 2*np.pi`.
On an empty array `.all()` is `True` and the body does not change the
array, so the source loops forever: that divergence is modelled as `none`.
On a nonempty array the loop terminates and returns the shifted array,
modelled as `some`. -/
def shiftUpAll (lo : ℝ) : List ℝ → Option (List ℝ)
  | [] => none
  | x :: xs =>
    if ∀ y ∈ x :: xs, y < lo then
      shiftUpAll lo ((x :: xs).map (fun y => y + 2 * π))
    else some (x :: xs)
termination_by l => upSteps lo l.headI
decreasing_by
  rename_i h
  have hx : x < lo := h x (by simp)
  simp only [List.map_cons, List.headI]
  unfold upSteps
  have hfl : ⌊(lo - (x + 2 * π)) / (2 * π)⌋ = ⌊(lo - x) / (2 * π)⌋ - 1 := by
    have heq : (lo - (x + 2 * π)) / (2 * π) = (lo - x) / (2 * π) - 1 := by
      field_simp
      ring
    rw [heq]
    exact_mod_cast Int.floor_sub_int ((lo - x) / (2 * π)) 1
  have h0 : 0 ≤ ⌊(lo - x) / (2 * π)⌋ := by
    have h1 : (0:ℝ) < lo - x := by linarith
    exact Int.floor_nonneg.2 (by positivity)
  omega

/-- Azimuth loop 2 of `sphadj` on an array:
`while (phi >= phi_max).all(): phi -= 2*np.pi`.
As in `shiftUpAll`, on an empty array the vacuously true guard makes the
source loop forever — modelled as `none`. -/
def shiftDownAll (hi : ℝ) : List ℝ → Option (List ℝ)
  | [] => none
  | x :: xs =>
    if ∀ y ∈ x :: xs, hi ≤ y then
      shiftDownAll hi ((x :: xs).map (fun y => y - 2 * π))
    else some (x :: xs)
termination_by l => downSteps hi l.headI
decreasing_by
  rename_i h
  have hx : hi ≤ x := h x (by simp)
  simp only [List.map_cons, List.headI]
  unfold downSteps
  have hfl : ⌊(x - 2 * π - hi) / (2 * π)⌋ = ⌊(x - hi) / (2 * π)⌋ - 1 := by
    have heq : (x - 2 * π - hi) / (2 * π) = (x - hi) / (2 * π) - 1 := by
      field_simp
      ring
    rw [heq]
    exact_mod_cast Int.floor_sub_int ((x - hi) / (2 * π)) 1
  have h0 : 0 ≤ ⌊(x - hi) / (2 * π)⌋ := by
    have h1 : (0:ℝ) ≤ x - hi := by linarith
    exact Int.floor_nonneg.2 (by positivity)
  omega

/-- Azimuth loop 3 of `sphadj` on an array:
`while (phi < phi_min).any(): phi[phi < phi_min] += 2*np.pi`.
On an empty array `.any()` is `False`, so `[]` returns immediately. -/
def shiftUpAny (lo : ℝ) (l : List ℝ) : List ℝ :=
  if ∃ x ∈ l, x < lo then shiftUpAny lo (stepUp lo l) else l
termination_by (l.map (upSteps lo)).sum
decreasing_by
  rename_i h
  have hlt : ∀ x : ℝ, x < lo → upSteps lo (x + 2 * π) < upSteps lo x := by
    intro x hx
    unfold upSteps
    have hfl : ⌊(lo - (x + 2 * π)) / (2 * π)⌋ = ⌊(lo - x) / (2 * π)⌋ - 1 := by
      have heq : (lo - (x + 2 * π)) / (2 * π) = (lo - x) / (2 * π) - 1 := by
        field_simp
        ring
      rw [heq]
      exact_mod_cast Int.floor_sub_int ((lo - x) / (2 * π)) 1
    have h0 : 0 ≤ ⌊(lo - x) / (2 * π)⌋ := by
      have h1 : (0:ℝ) < lo - x := by linarith
      exact Int.floor_nonneg.2 (by positivity)
    omega
  have hle : ∀ x : ℝ,
      upSteps lo (if x < lo then x + 2 * π else x) ≤ upSteps lo x := by
    intro x
    split
    · exact le_of_lt (hlt x (by assumption))
    · exact le_refl _
  have mono : ∀ m : List ℝ,
      ((stepUp lo m).map (upSteps lo)).sum ≤ (m.map (upSteps lo)).sum := by
    intro m
    induction m with
    | nil => simp [stepUp]
    | cons a t ih =>
      simp only [stepUp, List.map_cons, List.sum_cons] at *
      exact Nat.add_le_add (hle a) ih
  have main : ∀ m : List ℝ, (∃ y ∈ m, y < lo) →
      ((stepUp lo m).map (upSteps lo)).sum < (m.map (upSteps lo)).sum := by
    intro m hm
    induction m with
    | nil => simp at hm
    | cons a t ih =>
      obtain ⟨y, hy, hylt⟩ := hm
      simp only [stepUp, List.map_cons, List.sum_cons] at *
      rcases List.mem_cons.1 hy with rfl | hyt
      · have h1 : upSteps lo (if y < lo then y + 2 * π else y) < upSteps lo y := by
          rw [if_pos hylt]
          exact hlt y hylt
        exact Nat.add_lt_add_of_lt_of_le h1 (mono t)
      · exact Nat.add_lt_add_of_le_of_lt (hle a) (ih ⟨y, hyt, hylt⟩)
  exact main l h

/-- Azimuth loop 4 of `sphadj` on an array:
`while (phi >= phi_max).any(): phi[phi >= phi_max] -= 2*np.pi`. -/
def shiftDownAny (hi : ℝ) (l : List ℝ) : List ℝ :=
  if ∃ x ∈ l, hi ≤ x then shiftDownAny hi (stepDown hi l) else l
termination_by (l.map (downSteps hi)).sum
decreasing_by
  rename_i h
  have hlt : ∀ x : ℝ, hi ≤ x → downSteps hi (x - 2 * π) < downSteps hi x := by
    intro x hx
    unfold downSteps
    have hfl : ⌊(x - 2 * π - hi) / (2 * π)⌋ = ⌊(x - hi) / (2 * π)⌋ - 1 := by
      have heq : (x - 2 * π - hi) / (2 * π) = (x - hi) / (2 * π) - 1 := by
        field_simp
        ring
      rw [heq]
      exact_mod_cast Int.floor_sub_int ((x - hi) / (2 * π)) 1
    have h0 : 0 ≤ ⌊(x - hi) / (2 * π)⌋ := by
      have h1 : (0:ℝ) ≤ x - hi := by linarith
      exact Int.floor_nonneg.2 (by positivity)
    omega
  have hle : ∀ x : ℝ,
      downSteps hi (if hi ≤ x then x - 2 * π else x) ≤ downSteps hi x := by
    intro x
    split
    · exact le_of_lt (hlt x (by assumption))
    · exact le_refl _
  have mono : ∀ m : List ℝ,
      ((stepDown hi m).map (downSteps hi)).sum ≤ (m.map (downSteps hi)).sum := by
    intro m
    induction m with
    | nil => simp [stepDown]
    | cons a t ih =>
      simp only [stepDown, List.map_cons, List.sum_cons] at *
      exact Nat.add_le_add (hle a) ih
  have main : ∀ m : List ℝ, (∃ y ∈ m, hi ≤ y) →
      ((stepDown hi m).map (downSteps hi)).sum < (m.map (downSteps hi)).sum := by
    intro m hm
    induction m with
    | nil => simp at hm
    | cons a t ih =>
      obtain ⟨y, hy, hylt⟩ := hm
      simp only [stepDown, List.map_cons, List.sum_cons] at *
      rcases List.mem_cons.1 hy with rfl | hyt
      · have h1 : downSteps hi (if hi ≤ y then y - 2 * π else y) < downSteps hi y := by
          rw [if_pos hylt]
          exact hlt y hylt
        exact Nat.add_lt_add_of_lt_of_le h1 (mono t)
      · exact Nat.add_lt_add_of_le_of_lt (hle a) (ih ⟨y, hyt, hylt⟩)
  exact main l h

/-- The azimuth part of `sphadj` on an array: the four `while` loops in
source order (`none` = the first or second loop diverges, which happens
exactly on an empty array).  All four update `phi` in place, so the
returned list is also the final contents of the caller's array. -/
def aziStage (phi : List ℝ) (pmin pmax : ℝ) : Option (List ℝ) :=
  match shiftUpAll pmin phi with
  | none => none
  | some l1 =>
    match shiftDownAll pmax l1 with
    | none => none
    | some l2 => some (shiftDownAny pmax (shiftUpAny pmin l2))

/-- The elevation part of `sphadj` on arrays `theta`, `phi` (with `phi`
supplied).  Returns `(theta_result, phi_after, theta_caller)` where
`theta_result` is the local `theta` after the branch, `phi_after` the
contents of `phi` (all `phi` updates are in place, so returned and caller
array coincide) and `theta_caller` the final contents of the caller's
`theta` array (the masked branches 3 and 4 update it in place; branches 1
and 2 rebind the local name instead).
`np.all(phi)` is the all-nonzero test (`True` on an empty array).
In branches 3 and 4 the source updates `theta` first and only then
evaluates the mask for `phi` again, so the `phi` mask is computed from the
*updated* `theta`. -/
def eleStage (theta phi : List ℝ) (tmin tmax : ℝ) :
    List ℝ × List ℝ × List ℝ :=
  if ∀ t ∈ theta, tmax ≤ t then
    (theta.map (fun t => π - t),
     if ∀ p ∈ phi, p ≠ 0 then phi.map (fun p => p + π) else phi,
     theta)
  else if ∀ t ∈ theta, t < tmin then
    (theta.map (fun t => -π - t),
     if ∀ p ∈ phi, p ≠ 0 then phi.map (fun p => p + π) else phi,
     theta)
  else if ∃ t ∈ theta, tmax ≤ t then
    (theta.map (fun t => if tmax ≤ t then π - t else t),
     if ∀ p ∈ phi, p ≠ 0 then
       (theta.map (fun t => if tmax ≤ t then π - t else t)).zipWith
         (fun t p => if tmax ≤ t then p + π else p) phi
     else phi,
     theta.map (fun t => if tmax ≤ t then π - t else t))
  else if ∃ t ∈ theta, t < tmin then
    (theta.map (fun t => if t < tmin then -π - t else t),
     if ∀ p ∈ phi, p ≠ 0 then
       (theta.map (fun t => if t < tmin then -π - t else t)).zipWith
         (fun t p => if t < tmin then p + π else p) phi
     else phi,
     theta.map (fun t => if t < tmin then -π - t else t))
  else (theta, phi, theta)

/-- `sphadj(theta, phi, ...)` on arrays, with both arguments supplied
(`none` = the azimuth loops diverge, i.e. `phi` is empty).
First component: the returned `(theta, phi)` pair; second component: the
final contents of the caller's `theta` and `phi` arrays. -/
def sphadjArr (theta phi : List ℝ) (tmin tmax pmin pmax : ℝ) :
    Option ((List ℝ × List ℝ) × (List ℝ × List ℝ)) :=
  let e := eleStage theta phi tmin tmax
  match aziStage e.2.1 pmin pmax with
  | none => none
  | some phi2 => some ((e.1, phi2), (e.2.2, phi2))

/-- `aziadj(phi)` on an array: `sphadj(phi=phi)` with the default bounds;
with `theta is None` the elevation block is skipped (`np.all(None)` is
never consulted) and only the azimuth loops run. -/
def aziadjArr (phi : List ℝ) : Option (List ℝ) := aziStage phi (-π) π

/-- `vec2sph(vec)` on an N×3 array (the `vec.ndim != 1` branch):
`rho = la.norm(vec, axis=-1)` has shape `(N,)` and `0` entries are replaced
by `1`; the normalisation `vec / rho` then broadcasts an `(N,3)` array
against an `(N,)` array, which numpy accepts only when `N = 1` (scalar-like
broadcast) or `N = 3` (where it erroneously divides component `j` of every
row by `rho[j]`), and otherwise raises a `ValueError` — modelled as `none`.
The result rows are `(theta, phi, rho)` after `sphadj` with default
bounds. -/
def vec2sphBatch (vecs : List (ℝ × ℝ × ℝ)) : Option (List (ℝ × ℝ × ℝ)) :=
  let rho := vecs.map norm3
  let rho' := rho.map (fun r => if r = 0 then 1 else r)
  let vs : Option (List (ℝ × ℝ × ℝ)) :=
    if vecs.length = 1 then
      some (vecs.map (fun v =>
        (v.1 / rho'.headI, v.2.1 / rho'.headI, v.2.2 / rho'.headI)))
    else if vecs.length = 3 then
      match rho' with
      | [r0, r1, r2] =>
        some (vecs.map (fun v => (v.1 / r0, v.2.1 / r1, v.2.2 / r2)))
      | _ => none
    else none
  match vs with
  | none => none
  | some v =>
    let phi := v.map (fun w => arctan2 w.1 w.2.1)
    let theta := v.map (fun w => π / 2 - Real.arccos w.2.2)
    match sphadjArr theta phi (-(π / 2)) (π / 2) (-π) π with
    | none => none
    | some a => some (a.1.1.zipWith (fun t pr => (t, pr)) (a.1.2.zip rho'))

/-- `vec2pol(vec)` (packed call form) on a single 2-vector `(x, y)`:
`rho = sqrt(x^2 + y^2)`, `phi = np.arctan2(y, x)`, returned as the pair
`(rho, phi)`. -/
def vec2polPacked (x y : ℝ) : ℝ × ℝ :=
  (Real.sqrt (x ^ 2 + y ^ 2), arctan2 y x)

/-- `vec2pol(vec, y)` (two-argument call form) with `vec = x`:
`rho = sqrt(x^2 + y^2)`, `phi = np.arctan2(vec, y)` — note the first
(ordinate) argument of `arctan2` here is `x`, not `y`. -/
def vec2polXY (x y : ℝ) : ℝ × ℝ :=
  (Real.sqrt (x ^ 2 + y ^ 2), arctan2 x y)

/-- `pol2vec(pol)` (packed call form) on a single `(rho, phi)` pair:
`rho * (cos phi, sin phi)`. -/
def pol2vecPacked (rho phi : ℝ) : ℝ × ℝ :=
  (rho * Real.cos phi, rho * Real.sin phi)

/-- Modelled from the spec: the closed-form azimuth normalisation the spec
asserts the iterative folding to be equivalent to,
`((phi - phi_min) mod (phi_max - phi_min)) + phi_min`, with `mod` the
Python float modulo `a mod b = a - b * ⌊a / b⌋`. -/
def aziFormula (pmin pmax x : ℝ) : ℝ :=
  ((x - pmin) - (pmax - pmin) * ⌊(x - pmin) / (pmax - pmin)⌋) + pmin

/-- One-step unfolding of `foldUp` when the loop guard fails. -/
theorem foldUp_of_not_lt {lo x : ℝ} (h : ¬ x < lo) : foldUp lo x = x := by
  rw [foldUp, if_neg h]

/-- One-step unfolding of `foldUp` when the loop guard holds. -/
theorem foldUp_of_lt {lo x : ℝ} (h : x < lo) :
    foldUp lo x = foldUp lo (x + 2 * π) := by
  rw [foldUp]
  simp [h]

/-- One-step unfolding of `foldDown` when the loop guard fails. -/
theorem foldDown_of_lt {hi x : ℝ} (h : x < hi) : foldDown hi x = x := by
  rw [foldDown, if_neg (by linarith)]

/-- One-step unfolding of `foldDown` when the loop guard holds. -/
theorem foldDown_of_le {hi x : ℝ} (h : hi ≤ x) :
    foldDown hi x = foldDown hi (x - 2 * π) := by
  rw [foldDown]
  simp [h]

/-- The signed branch of `angle_between` in terms of `Int.fract`. -/
theorem angle_between_true_eq (a b : ℝ) :
    angle_between a b true = 2 * π * Int.fract ((a - b + π) / (2 * π)) - π := by
  have hc : (0:ℝ) < 2 * π := by positivity
  have h2 : 2 * π * Int.fract ((a - b + π) / (2 * π))
      = (a - b + π) - 2 * π * ⌊(a - b + π) / (2 * π)⌋ := by
    rw [Int.fract, mul_sub, mul_div_cancel₀ _ (ne_of_gt hc)]
  simp only [angle_between, if_pos]
  linarith

/-- C3, counterexample: the claim puts the signed result of `angle_between`
in the half-open interval `(-π, π]`, whose representative of `π - 0` is `π`;
but `angle_between(π, 0, sign=True)` evaluates to `-π`, which is not `π`.
The code's interval is `[-π, π)`, not `(-π, π]`. -/
theorem c3_counterexample :
    angle_between π 0 true = -π ∧ (-π : ℝ) ≠ π := by
  constructor
  · have harg : π - 0 + π = 2 * π := by ring
    rw [angle_between_true_eq, harg]
    have hd : (2 * π) / (2 * π) = 1 := div_self (by positivity)
    rw [Int.fract, hd, Int.floor_one]
    push_cast
    ring
  · intro h
    have := Real.pi_pos
    linarith

/-- C3, amended: element-wise, `angle_between(ang1, ang2, sign=True)` is the
unique value congruent to `ang1 - ang2` modulo `2π` lying in the half-open
interval `[-π, π)` (not `(-π, π]`), and with `sign=False` its absolute
value, lying in `[0, π]`.  `angle_between(π - 0.01, -π + 0.01)` is exactly
`-0.02` (so its magnitude is `0.02`, not `2π - 0.02`), and
`angle_between(0, π, sign=False) = π`. -/
theorem c3_amended :
    (∀ a b : ℝ,
      angle_between a b true ∈ Set.Ico (-π) π ∧
      (∃ k : ℤ, angle_between a b true - (a - b) = 2 * π * k) ∧
      angle_between a b false = |angle_between a b true| ∧
      angle_between a b false ∈ Set.Icc 0 π) ∧
    angle_between (π - 1 / 100) (-π + 1 / 100) true = -(1 / 50) ∧
    angle_between 0 π false = π := by
  refine ⟨fun a b => ?_, ?_, ?_⟩
  · have hpi := Real.pi_pos
    have hf0 : 0 ≤ Int.fract ((a - b + π) / (2 * π)) := Int.fract_nonneg _
    have hf1 : Int.fract ((a - b + π) / (2 * π)) < 1 := Int.fract_lt_one _
    have hlo : -π ≤ angle_between a b true := by
      rw [angle_between_true_eq]
      nlinarith
    have hhi : angle_between a b true < π := by
      rw [angle_between_true_eq]
      nlinarith
    have habs : angle_between a b false = |angle_between a b true| := by
      simp [angle_between]
    refine ⟨⟨hlo, hhi⟩, ⟨-⌊(a - b + π) / (2 * π)⌋, ?_⟩, habs, ?_⟩
    · have h2 : 2 * π * Int.fract ((a - b + π) / (2 * π))
          = (a - b + π) - 2 * π * ⌊(a - b + π) / (2 * π)⌋ := by
        rw [Int.fract, mul_sub, mul_div_cancel₀ _ (by positivity : (2:ℝ) * π ≠ 0)]
      rw [angle_between_true_eq, h2]
      push_cast
      ring
    · rw [habs]
      exact ⟨abs_nonneg _, abs_le.2 ⟨hlo, le_of_lt hhi⟩⟩
  · have hpi3 := Real.pi_gt_three
    have hpi := Real.pi_pos
    have harg : π - 1 / 100 - (-π + 1 / 100) + π = 3 * π - 1 / 50 := by ring
    have hfl : ⌊(3 * π - 1 / 50) / (2 * π)⌋ = 1 := by
      rw [Int.floor_eq_iff]
      push_cast
      constructor
      · rw [le_div_iff₀ (by positivity)]
        linarith
      · rw [div_lt_iff₀ (by positivity)]
        linarith
    rw [angle_between_true_eq, harg, Int.fract, hfl]
    push_cast
    field_simp
    ring
  · have habs : angle_between 0 π false = |angle_between 0 π true| := by
      simp [angle_between]
    have hval : angle_between 0 π true = -π := by
      rw [angle_between_true_eq, show ((0:ℝ) - π + π) = 0 from by ring]
      simp
    rw [habs, hval, abs_neg, abs_of_pos Real.pi_pos]

/-- C6, counterexample: in the two-argument call form `vec2pol(x, y)` with
`x = 1, y = 0`, the claim says the returned angle is `atan2(y, x) =
atan2(0, 1) = 0`, but the source computes `np.arctan2(vec, y) =
atan2(1, 0) = π/2`. -/
theorem c6_counterexample :
    (vec2polXY 1 0).2 = π / 2 ∧ arctan2 0 1 = 0 ∧ (π / 2 : ℝ) ≠ 0 := by
  refine ⟨?_, ?_, ?_⟩
  · show arctan2 1 0 = π / 2
    unfold arctan2
    rw [show (⟨0, 1⟩ : ℂ) = Complex.I from rfl, Complex.arg_I]
  · unfold arctan2
    rw [show (⟨1, 0⟩ : ℂ) = (1 : ℂ) from rfl, Complex.arg_one]
  · have := Real.pi_pos
    intro h
    linarith

/-- C6, amended: in the packed call form `vec2pol` returns
`(hypot(x,y), atan2(y,x))` — so `pol2vec` inverts it exactly — while the
two-argument form `vec2pol(x, y)` computes `atan2(x, y)`, i.e. it behaves
as the packed form applied to the swapped pair `(y, x)`; `rho` is
`hypot(x, y)` in both forms. -/
theorem c6_amended : ∀ x y : ℝ,
    vec2polXY x y = vec2polPacked y x ∧
    pol2vecPacked (vec2polPacked x y).1 (vec2polPacked x y).2 = (x, y) := by
  intro x y
  constructor
  · simp [vec2polXY, vec2polPacked, add_comm]
  · by_cases hz : (⟨x, y⟩ : ℂ) = 0
    · have hx : x = 0 ∧ y = 0 := by
        constructor
        · exact congrArg Complex.re hz
        · exact congrArg Complex.im hz
      simp [vec2polPacked, pol2vecPacked, hx.1, hx.2]
    · have habs : Complex.abs ⟨x, y⟩ = Real.sqrt (x ^ 2 + y ^ 2) := by
        rw [Complex.abs_apply, Complex.normSq_mk]
        ring_nf
      have hane : Complex.abs ⟨x, y⟩ ≠ 0 := (AbsoluteValue.ne_zero_iff _).2 hz
      have hcos := Complex.cos_arg hz
      have hsin := Complex.sin_arg (⟨x, y⟩ : ℂ)
      unfold pol2vecPacked vec2polPacked arctan2
      simp only [← habs, Prod.mk.injEq]
      rw [hcos, hsin]
      constructor
      · field_simp
      · field_simp

/-- Helper: with every entry of `phi` nonzero and every violating entry `t`
of `theta` satisfying `π - t < tmax`, the post-update mask of branch 3 of
the elevation stage selects no entry, so the `phi` shift is empty. -/
theorem zipWith_shift_eq_of_strict {tmax : ℝ} : ∀ ts ps : List ℝ,
    ts.length = ps.length →
    (∀ t ∈ ts, tmax ≤ t → π - t < tmax) →
    List.zipWith (fun t p => if tmax ≤ t then p + π else p)
      (ts.map (fun t => if tmax ≤ t then π - t else t)) ps = ps := by
  intro ts
  induction ts with
  | nil =>
    intro ps hlen _
    cases ps with
    | nil => rfl
    | cons b qs => simp at hlen
  | cons a ts ih =>
    intro ps hlen hstrict
    cases ps with
    | nil => simp at hlen
    | cons b qs =>
      simp only [List.map_cons, List.zipWith_cons_cons]
      congr 1
      · by_cases ha : tmax ≤ a
        · rw [if_pos ha, if_neg (not_le.2 (hstrict a (List.mem_cons_self a ts) ha))]
        · rw [if_neg ha, if_neg ha]
      · exact ih qs (by simpa using hlen)
          (fun t ht h => hstrict t (List.mem_cons_of_mem _ ht) h)

/-- Helper: the four azimuth loops leave an array alone when every entry is
already inside `[pmin, pmax)` (and the array is nonempty). -/
theorem aziStage_id {pmin pmax : ℝ} {phi : List ℝ} (hne : phi ≠ [])
    (hphi : ∀ p ∈ phi, pmin ≤ p ∧ p < pmax) :
    aziStage phi pmin pmax = some phi := by
  obtain ⟨b, q, rfl⟩ := List.exists_cons_of_ne_nil hne
  have h1 : ¬ ∀ y ∈ b :: q, y < pmin := by
    intro hc
    exact absurd (hc b (List.mem_cons_self b q)) (not_lt.2 (hphi b (List.mem_cons_self b q)).1)
  have h2 : ¬ ∀ y ∈ b :: q, pmax ≤ y := by
    intro hc
    exact absurd (hc b (List.mem_cons_self b q)) (not_le.2 (hphi b (List.mem_cons_self b q)).2)
  have h3 : ¬ ∃ x ∈ b :: q, x < pmin := by
    rintro ⟨x, hx, hlt⟩
    exact absurd hlt (not_lt.2 (hphi x hx).1)
  have h4 : ¬ ∃ x ∈ b :: q, pmax ≤ x := by
    rintro ⟨x, hx, hle⟩
    exact absurd hle (not_le.2 (hphi x hx).2)
  have hu : shiftUpAll pmin (b :: q) = some (b :: q) := by
    rw [shiftUpAll, if_neg h1]
  have hd : shiftDownAll pmax (b :: q) = some (b :: q) := by
    rw [shiftDownAll, if_neg h2]
  have hu3 : shiftUpAny pmin (b :: q) = b :: q := by
    rw [shiftUpAny, if_neg h3]
  have hd4 : shiftDownAny pmax (b :: q) = b :: q := by
    rw [shiftDownAny, if_neg h4]
  unfold aziStage
  rw [hu]
  show (match shiftDownAll pmax (b :: q) with
    | none => none
    | some l2 => some (shiftDownAny pmax (shiftUpAny pmin l2))) = some (b :: q)
  rw [hd]
  show some (shiftDownAny pmax (shiftUpAny pmin (b :: q))) = some (b :: q)
  rw [hu3, hd4]

/-- C10: whenever the elevation stage of `sphadj` folds elevation values and
an azimuth array `phi` is supplied, the compensating `phi -> phi + π` shift
is gated on `np.all(phi)`: if any single entry of `phi` equals exactly `0`,
no entry of `phi` is shifted at all — `phi` leaves the elevation stage
unchanged, whatever `theta` was folded to. -/
theorem c10_zero_gates_phi_shift (theta phi : List ℝ) (tmin tmax : ℝ)
    (h : (0:ℝ) ∈ phi) : (eleStage theta phi tmin tmax).2.1 = phi := by
  have hall : ¬ ∀ p ∈ phi, p ≠ 0 := fun hc => hc 0 h rfl
  unfold eleStage
  split
  · simp only [if_neg hall]
  · split
    · simp only [if_neg hall]
    · split
      · simp only [if_neg hall]
      · split
        · simp only [if_neg hall]
        · rfl

/-- C10, witness: `theta = [2, 2]` (all entries at/above the bound, so the
whole-array fold fires), `phi = [0, 1]` contains a zero entry, hence `phi`
is returned unshifted. -/
theorem c10_zero_gates_phi_shift_witness :
    (0:ℝ) ∈ [(0:ℝ), 1] ∧
    (eleStage [2, 2] [(0:ℝ), 1] (-(π / 2)) (π / 2)).2.1 = [(0:ℝ), 1] :=
  ⟨by simp, c10_zero_gates_phi_shift [2, 2] [(0:ℝ), 1] (-(π / 2)) (π / 2) (by simp)⟩

/-- C4, counterexample: `theta = [0, 2]`, `phi = [1, 1]` with the default
bounds.  Entry `2` violates `theta >= pi/2` and is folded to `π - 2`, but
the `phi` shift mask is recomputed from the *updated* `theta`, where
`π - 2 < π/2`, so no `phi` entry receives the claimed `+π`: the claim says
the result is `([0, π-2], [1, 1+π])`, the code returns `([0, π-2], [1, 1])`. -/
theorem c4_counterexample :
    sphadjArr [0, 2] [1, 1] (-(π / 2)) (π / 2) (-π) π
      = some (([0, π - 2], [1, 1]), ([0, π - 2], [1, 1])) ∧
    ([1, 1] : List ℝ) ≠ [1, 1 + π] := by
  have hpi := Real.pi_pos
  have hpil : π < 3.15 := Real.pi_lt_d2
  have hpig : π > 3.141592 := Real.pi_gt_d6
  have h02 : ¬ (π / 2 ≤ (0:ℝ)) := not_le.2 (by positivity)
  have h22 : π / 2 ≤ (2:ℝ) := by linarith
  have hq2 : ¬ (π / 2 ≤ π - 2) := by
    intro h
    linarith
  have hm0 : ¬ ((0:ℝ) < -(π / 2)) := by
    intro h
    linarith
  have hele : eleStage [0, 2] [1, 1] (-(π / 2)) (π / 2)
      = ([0, π - 2], [1, 1], [0, π - 2]) := by
    have hc1 : ¬ ∀ t ∈ ([0, 2] : List ℝ), π / 2 ≤ t := by
      intro hc
      exact h02 (hc 0 (by simp))
    have hc2 : ¬ ∀ t ∈ ([0, 2] : List ℝ), t < -(π / 2) := by
      intro hc
      exact hm0 (hc 0 (by simp))
    have hc3 : ∃ t ∈ ([0, 2] : List ℝ), π / 2 ≤ t := ⟨2, by simp, h22⟩
    have hc4 : ∀ p ∈ ([1, 1] : List ℝ), p ≠ (0:ℝ) := by
      intro p hp
      simp at hp
      subst hp
      norm_num
    unfold eleStage
    rw [if_neg hc1, if_neg hc2, if_pos hc3]
    simp [hc4, h02, h22, hq2]
  constructor
  · have hazi : aziStage [1, 1] (-π) π = some [1, 1] := by
      refine aziStage_id (by simp) ?_
      intro p hp
      simp at hp
      subst hp
      constructor <;> linarith
    unfold sphadjArr
    rw [hele]
    simp only [hazi]
  · intro h
    rw [List.cons.injEq, List.cons.injEq] at h
    have := h.2.1
    linarith

/-- C4, amended: when some but not all entries of `theta` lie at or above
`tmax` (and none of the preceding whole-array branches fire), the violating
entries are folded `t -> π - t` exactly as claimed and the caller's `theta`
holds the folded values; but the compensating `phi` shift is applied at the
positions where the *updated* elevation still satisfies `tmax ≤ t` — not at
the original violating positions.  In particular, when every violating
entry `t` has `π - t < tmax` (e.g. `t` strictly above `π/2` with the
default bounds), no `phi` entry is shifted at all and `phi` leaves the
elevation stage unchanged. -/
theorem c4_amended (theta phi : List ℝ) (tmin tmax : ℝ)
    (hlen : theta.length = phi.length)
    (_hphi : ∀ p ∈ phi, p ≠ 0)
    (hsome : ∃ t ∈ theta, tmax ≤ t)
    (hnotall : ¬ ∀ t ∈ theta, tmax ≤ t)
    (hminmax : tmin ≤ tmax)
    (hstrict : ∀ t ∈ theta, tmax ≤ t → π - t < tmax) :
    eleStage theta phi tmin tmax
      = (theta.map (fun t => if tmax ≤ t then π - t else t), phi,
         theta.map (fun t => if tmax ≤ t then π - t else t)) := by
  have hnotmin : ¬ ∀ t ∈ theta, t < tmin := by
    obtain ⟨t, ht, htm⟩ := hsome
    intro hc
    exact absurd (hc t ht) (not_lt.2 (le_trans hminmax htm))
  unfold eleStage
  rw [if_neg hnotall, if_neg hnotmin, if_pos hsome]
  rw [zipWith_shift_eq_of_strict theta phi hlen hstrict]
  simp only [ite_self]

/-- C4, witness for the amended statement at `theta = [0, 2]`,
`phi = [3, 3]`, default elevation bounds. -/
theorem c4_amended_witness :
    π / 2 ≤ (2:ℝ) ∧
    eleStage [0, 2] [3, 3] (-(π / 2)) (π / 2)
      = (([0, 2] : List ℝ).map (fun t => if π / 2 ≤ t then π - t else t),
         [3, 3],
         ([0, 2] : List ℝ).map (fun t => if π / 2 ≤ t then π - t else t)) := by
  have hpil : π < 3.15 := Real.pi_lt_d2
  have hpig : π > 3.141592 := Real.pi_gt_d6
  have h22 : π / 2 ≤ (2:ℝ) := by linarith
  refine ⟨h22, c4_amended [0, 2] [3, 3] (-(π / 2)) (π / 2) (by simp) ?_ ?_ ?_ ?_ ?_⟩
  · intro p hp
    simp at hp
    subst hp
    norm_num
  · exact ⟨2, by simp, h22⟩
  · intro hc
    have := hc 0 (by simp)
    linarith
  · linarith
  · intro t ht h
    simp at ht
    rcases ht with rfl | rfl
    · linarith
    · linarith

/-- C9, counterexample: `sphadj` mutates the caller's `theta` array in
place in the masked elevation branch: after
`sphadj([2, 0], [1, 1])` (default bounds) the caller's `theta` array holds
`[π - 2, 0]`, not the original `[2, 0]`. -/
theorem c9_counterexample :
    sphadjArr [2, 0] [1, 1] (-(π / 2)) (π / 2) (-π) π
      = some (([π - 2, 0], [1, 1]), ([π - 2, 0], [1, 1])) ∧
    ([π - 2, 0] : List ℝ) ≠ [2, 0] := by
  have hpi := Real.pi_pos
  have hpil : π < 3.15 := Real.pi_lt_d2
  have hpig : π > 3.141592 := Real.pi_gt_d6
  have h02 : ¬ (π / 2 ≤ (0:ℝ)) := not_le.2 (by positivity)
  have h22 : π / 2 ≤ (2:ℝ) := by linarith
  have hq2 : ¬ (π / 2 ≤ π - 2) := by
    intro h
    linarith
  constructor
  · have hele : eleStage [2, 0] [1, 1] (-(π / 2)) (π / 2)
        = ([π - 2, 0], [1, 1], [π - 2, 0]) := by
      have hc1 : ¬ ∀ t ∈ ([2, 0] : List ℝ), π / 2 ≤ t := by
        intro hc
        exact h02 (hc 0 (by simp))
      have hc2 : ¬ ∀ t ∈ ([2, 0] : List ℝ), t < -(π / 2) := by
        intro hc
        have := hc 2 (by simp)
        linarith
      have hc3 : ∃ t ∈ ([2, 0] : List ℝ), π / 2 ≤ t := ⟨2, by simp, h22⟩
      have hc4 : ∀ p ∈ ([1, 1] : List ℝ), p ≠ (0:ℝ) := by
        intro p hp
        simp at hp
        subst hp
        norm_num
      unfold eleStage
      rw [if_neg hc1, if_neg hc2, if_pos hc3]
      simp [hc4, h02, h22, hq2]
    have hazi : aziStage [1, 1] (-π) π = some [1, 1] := by
      refine aziStage_id (by simp) ?_
      intro p hp
      simp at hp
      subst hp
      constructor <;> linarith
    unfold sphadjArr
    rw [hele]
    simp only [hazi]
  · intro h
    rw [List.cons.injEq] at h
    have := h.1
    linarith

/-- C9, amended: `sphadj` is *not* mutation-free in general (see the
counterexample), but when every supplied elevation already lies in
`[tmin, tmax)` and every supplied azimuth in `[pmin, pmax)` (nonempty
arrays), no branch fires, nothing is written in place, and both the
returned pair and the caller's arrays equal the inputs.  (`vec2sph` itself
never exposes mutation of its argument: it passes freshly computed
`theta`/`phi` arrays to `sphadj`.) -/
theorem c9_amended (theta phi : List ℝ) (tmin tmax pmin pmax : ℝ)
    (hθne : theta ≠ []) (hθ : ∀ t ∈ theta, tmin ≤ t ∧ t < tmax)
    (hφne : phi ≠ []) (hφ : ∀ p ∈ phi, pmin ≤ p ∧ p < pmax) :
    sphadjArr theta phi tmin tmax pmin pmax
      = some ((theta, phi), (theta, phi)) := by
  obtain ⟨a, ts, rfl⟩ := List.exists_cons_of_ne_nil hθne
  have h1 : ¬ ∀ t ∈ a :: ts, tmax ≤ t := by
    intro hc
    exact absurd (hc a (List.mem_cons_self a ts)) (not_le.2 (hθ a (List.mem_cons_self a ts)).2)
  have h2 : ¬ ∀ t ∈ a :: ts, t < tmin := by
    intro hc
    exact absurd (hc a (List.mem_cons_self a ts)) (not_lt.2 (hθ a (List.mem_cons_self a ts)).1)
  have h3 : ¬ ∃ t ∈ a :: ts, tmax ≤ t := by
    rintro ⟨t, ht, h⟩
    exact absurd h (not_le.2 (hθ t ht).2)
  have h4 : ¬ ∃ t ∈ a :: ts, t < tmin := by
    rintro ⟨t, ht, h⟩
    exact absurd h (not_lt.2 (hθ t ht).1)
  have hele : eleStage (a :: ts) phi tmin tmax = (a :: ts, phi, a :: ts) := by
    unfold eleStage
    rw [if_neg h1, if_neg h2, if_neg h3, if_neg h4]
  unfold sphadjArr
  rw [hele]
  simp only [aziStage_id hφne hφ]

/-- C9, witness for the amended statement: in-range inputs `[0]`, `[0]`
with the default bounds come back unchanged, caller arrays included. -/
theorem c9_amended_witness :
    ((0:ℝ) < π / 2) ∧
    sphadjArr [0] [0] (-(π / 2)) (π / 2) (-π) π
      = some (([0], [0]), ([0], [0])) := by
  have hpi := Real.pi_pos
  refine ⟨by positivity, c9_amended [0] [0] (-(π / 2)) (π / 2) (-π) π (by simp) ?_ (by simp) ?_⟩
  · intro t ht
    simp at ht
    subst ht
    constructor <;> [linarith; positivity]
  · intro p hp
    simp at hp
    subst hp
    constructor <;> [linarith; positivity]

/-- Helper: `getD` through `map` at an in-range index. -/
theorem getD_map_of_lt (f : ℝ → ℝ) (l : List ℝ) (i : ℕ) (h : i < l.length) :
    (l.map f).getD i 0 = f (l.getD i 0) := by
  rw [List.getD_eq_getElem _ _ (by simpa using h), List.getD_eq_getElem _ _ h,
    List.getElem_map]

/-- Helper: on a nonempty array azimuth loop 1 terminates, shifting the
whole array by a common multiple of `2π`. -/
theorem shiftUpAll_shift (lo : ℝ) (l : List ℝ) (hne : l ≠ []) :
    ∃ m : ℕ, shiftUpAll lo l = some (l.map (fun x => x + 2 * π * m)) := by
  induction l using shiftUpAll.induct lo with
  | case1 => exact absurd rfl hne
  | case2 x xs hcond ih =>
    obtain ⟨m, hm⟩ := ih (by simp)
    refine ⟨m + 1, ?_⟩
    rw [shiftUpAll, if_pos hcond, hm, List.map_map]
    congr 1
    apply List.map_congr_left
    intro a _
    simp only [Function.comp_apply]
    push_cast
    ring
  | case3 x xs hcond =>
    refine ⟨0, ?_⟩
    rw [shiftUpAll, if_neg hcond]
    simp

/-- Helper: on a nonempty array azimuth loop 2 terminates, shifting the
whole array by a common multiple of `2π`. -/
theorem shiftDownAll_shift (hi : ℝ) (l : List ℝ) (hne : l ≠ []) :
    ∃ m : ℕ, shiftDownAll hi l = some (l.map (fun x => x - 2 * π * m)) := by
  induction l using shiftDownAll.induct hi with
  | case1 => exact absurd rfl hne
  | case2 x xs hcond ih =>
    obtain ⟨m, hm⟩ := ih (by simp)
    refine ⟨m + 1, ?_⟩
    rw [shiftDownAll, if_pos hcond, hm, List.map_map]
    congr 1
    apply List.map_congr_left
    intro a _
    simp only [Function.comp_apply]
    push_cast
    ring
  | case3 x xs hcond =>
    refine ⟨0, ?_⟩
    rw [shiftDownAll, if_neg hcond]
    simp

/-- Helper: azimuth loop 3 preserves length. -/
theorem shiftUpAny_length (lo : ℝ) (l : List ℝ) :
    (shiftUpAny lo l).length = l.length := by
  induction l using shiftUpAny.induct lo with
  | case1 l hcond ih =>
    rw [shiftUpAny, if_pos hcond]
    rw [ih]
    simp [stepUp]
  | case2 l hcond =>
    rw [shiftUpAny, if_neg hcond]

/-- Helper: azimuth loop 4 preserves length. -/
theorem shiftDownAny_length (hi : ℝ) (l : List ℝ) :
    (shiftDownAny hi l).length = l.length := by
  induction l using shiftDownAny.induct hi with
  | case1 l hcond ih =>
    rw [shiftDownAny, if_pos hcond]
    rw [ih]
    simp [stepDown]
  | case2 l hcond =>
    rw [shiftDownAny, if_neg hcond]

/-- Helper, element-wise behaviour of azimuth loop 3: entries at or above
`lo` are never touched; entries below `lo` are bumped by multiples of `2π`
ending in `[lo, lo + 2π)`. -/
theorem shiftUpAny_getD (lo : ℝ) (l : List ℝ) (i : ℕ) (h : i < l.length) :
    (lo ≤ l.getD i 0 → (shiftUpAny lo l).getD i 0 = l.getD i 0) ∧
    (l.getD i 0 < lo →
      (∃ k : ℕ, (shiftUpAny lo l).getD i 0 = l.getD i 0 + 2 * π * k) ∧
      lo ≤ (shiftUpAny lo l).getD i 0 ∧
      (shiftUpAny lo l).getD i 0 < lo + 2 * π) := by
  have hpi := Real.pi_pos
  induction l using shiftUpAny.induct lo with
  | case1 l hcond ih =>
    have hlen : i < (stepUp lo l).length := by simpa [stepUp] using h
    have heq : shiftUpAny lo l = shiftUpAny lo (stepUp lo l) := by
      conv_lhs => rw [shiftUpAny]
      rw [if_pos hcond]
    have hstep : (stepUp lo l).getD i 0
        = if l.getD i 0 < lo then l.getD i 0 + 2 * π else l.getD i 0 := by
      unfold stepUp
      exact getD_map_of_lt _ l i h
    obtain ⟨ih1, ih2⟩ := ih hlen
    constructor
    · intro hge
      have hs : (stepUp lo l).getD i 0 = l.getD i 0 := by
        rw [hstep, if_neg (not_lt.2 hge)]
      rw [heq, ih1 (by rw [hs]; exact hge), hs]
    · intro hlt
      have hs : (stepUp lo l).getD i 0 = l.getD i 0 + 2 * π := by
        rw [hstep, if_pos hlt]
      rw [heq]
      by_cases hb : l.getD i 0 + 2 * π < lo
      · obtain ⟨⟨k, hk⟩, hge2, hub2⟩ := ih2 (by rw [hs]; exact hb)
        rw [hs] at hk
        refine ⟨⟨k + 1, ?_⟩, hge2, hub2⟩
        rw [hk]
        push_cast
        ring
      · push_neg at hb
        have hfix : (shiftUpAny lo (stepUp lo l)).getD i 0 = (stepUp lo l).getD i 0 :=
          ih1 (by rw [hs]; exact hb)
        rw [hfix, hs]
        refine ⟨⟨1, by push_cast; ring⟩, hb, by linarith⟩
  | case2 l hcond =>
    rw [shiftUpAny, if_neg hcond]
    constructor
    · intro _
      rfl
    · intro hlt
      have hmem : l.getD i 0 ∈ l := by
        rw [List.getD_eq_getElem _ _ h]
        exact List.getElem_mem h
      exact absurd ⟨_, hmem, hlt⟩ hcond

/-- Helper, element-wise behaviour of azimuth loop 4: entries below `hi`
are never touched; entries at or above `hi` are lowered by multiples of
`2π` ending in `[hi - 2π, hi)`. -/
theorem shiftDownAny_getD (hi : ℝ) (l : List ℝ) (i : ℕ) (h : i < l.length) :
    (l.getD i 0 < hi → (shiftDownAny hi l).getD i 0 = l.getD i 0) ∧
    (hi ≤ l.getD i 0 →
      (∃ k : ℕ, (shiftDownAny hi l).getD i 0 = l.getD i 0 - 2 * π * k) ∧
      hi - 2 * π ≤ (shiftDownAny hi l).getD i 0 ∧
      (shiftDownAny hi l).getD i 0 < hi) := by
  have hpi := Real.pi_pos
  induction l using shiftDownAny.induct hi with
  | case1 l hcond ih =>
    have hlen : i < (stepDown hi l).length := by simpa [stepDown] using h
    have heq : shiftDownAny hi l = shiftDownAny hi (stepDown hi l) := by
      conv_lhs => rw [shiftDownAny]
      rw [if_pos hcond]
    have hstep : (stepDown hi l).getD i 0
        = if hi ≤ l.getD i 0 then l.getD i 0 - 2 * π else l.getD i 0 := by
      unfold stepDown
      exact getD_map_of_lt _ l i h
    obtain ⟨ih1, ih2⟩ := ih hlen
    constructor
    · intro hge
      have hs : (stepDown hi l).getD i 0 = l.getD i 0 := by
        rw [hstep, if_neg (not_le.2 hge)]
      rw [heq, ih1 (by rw [hs]; exact hge), hs]
    · intro hlt
      have hs : (stepDown hi l).getD i 0 = l.getD i 0 - 2 * π := by
        rw [hstep, if_pos hlt]
      rw [heq]
      by_cases hb : hi ≤ l.getD i 0 - 2 * π
      · obtain ⟨⟨k, hk⟩, hge2, hub2⟩ := ih2 (by rw [hs]; exact hb)
        rw [hs] at hk
        refine ⟨⟨k + 1, ?_⟩, hge2, hub2⟩
        rw [hk]
        push_cast
        ring
      · push_neg at hb
        have hfix : (shiftDownAny hi (stepDown hi l)).getD i 0 = (stepDown hi l).getD i 0 :=
          ih1 (by rw [hs]; exact hb)
        rw [hfix, hs]
        refine ⟨⟨1, by push_cast; ring⟩, by linarith, hb⟩
  | case2 l hcond =>
    rw [shiftDownAny, if_neg hcond]
    constructor
    · intro _
      rfl
    · intro hlt
      have hmem : l.getD i 0 ∈ l := by
        rw [List.getD_eq_getElem _ _ h]
        exact List.getElem_mem h
      exact absurd ⟨_, hmem, hlt⟩ hcond

/-- Helper: a value congruent to `x - lo` modulo `2π` and lying in
`[lo, lo + 2π)` is the `mod`-formula representative. -/
theorem two_pi_rep_unique {lo x w : ℝ} (K : ℤ) (hw : w = x + 2 * π * K)
    (h1 : lo ≤ w) (h2 : w < lo + 2 * π) :
    w = (x - lo) - 2 * π * ⌊(x - lo) / (2 * π)⌋ + lo := by
  have hpi := Real.pi_pos
  have hfl : ⌊(x - lo) / (2 * π)⌋ = -K := by
    rw [Int.floor_eq_iff]
    push_cast
    constructor
    · rw [le_div_iff₀ (by positivity)]
      linarith
    · rw [div_lt_iff₀ (by positivity)]
      linarith
  rw [hfl]
  push_cast
  linarith

/-- Helper: on a nonempty array with bounds spanning exactly `2π`, the four
azimuth loops terminate and compute, element-wise, the closed-form
normalisation `((phi - phi_min) mod (phi_max - phi_min)) + phi_min`. -/
theorem aziStage_eq_formula (pmin pmax : ℝ) (hspan : pmax - pmin = 2 * π)
    (phi : List ℝ) (hne : phi ≠ []) :
    aziStage phi pmin pmax = some (phi.map (aziFormula pmin pmax)) := by
  have hpi := Real.pi_pos
  obtain ⟨m1, h1⟩ := shiftUpAll_shift pmin phi hne
  obtain ⟨m2, h2⟩ := shiftDownAll_shift pmax
    (phi.map (fun x : ℝ => x + 2 * π * m1)) (by simpa using hne)
  have hl2eq : (phi.map (fun x : ℝ => x + 2 * π * m1)).map
        (fun x : ℝ => x - 2 * π * m2)
      = phi.map (fun x : ℝ => x + 2 * π * m1 - 2 * π * m2) := by
    rw [List.map_map]
    rfl
  unfold aziStage
  rw [h1]
  show (match shiftDownAll pmax (phi.map (fun x : ℝ => x + 2 * π * m1)) with
    | none => none
    | some l2 => some (shiftDownAny pmax (shiftUpAny pmin l2)))
    = some (phi.map (aziFormula pmin pmax))
  rw [h2]
  show some (shiftDownAny pmax (shiftUpAny pmin
      ((phi.map (fun x : ℝ => x + 2 * π * m1)).map (fun x : ℝ => x - 2 * π * m2))))
    = some (phi.map (aziFormula pmin pmax))
  rw [hl2eq]
  congr 1
  have hlen2 : (phi.map (fun x : ℝ => x + 2 * π * m1 - 2 * π * m2)).length
      = phi.length := List.length_map _ _
  generalize hL2 : phi.map (fun x : ℝ => x + 2 * π * m1 - 2 * π * m2) = L2
    at hlen2 ⊢
  have hlen3 : (shiftUpAny pmin L2).length = L2.length := shiftUpAny_length pmin L2
  have hlen4 : (shiftDownAny pmax (shiftUpAny pmin L2)).length
      = (shiftUpAny pmin L2).length := shiftDownAny_length pmax (shiftUpAny pmin L2)
  apply List.ext_getElem (by rw [hlen4, hlen3, hlen2, List.length_map])
  intro i hi1 hi2
  have hiphi : i < phi.length := by
    rw [← hlen2, ← hlen3, ← hlen4]
    exact hi1
  have hi2l : i < L2.length := by
    rw [hlen2]
    exact hiphi
  have hi3l : i < (shiftUpAny pmin L2).length := by
    rw [hlen3]
    exact hi2l
  rw [← List.getD_eq_getElem _ 0 hi1, ← List.getD_eq_getElem _ 0 hi2,
    getD_map_of_lt _ phi i hiphi]
  have hx2 : L2.getD i 0 = phi.getD i 0 + 2 * π * m1 - 2 * π * m2 := by
    rw [← hL2, getD_map_of_lt _ phi i hiphi]
  obtain ⟨up1, up2⟩ := shiftUpAny_getD pmin L2 i hi2l
  obtain ⟨dn1, dn2⟩ := shiftDownAny_getD pmax (shiftUpAny pmin L2) i hi3l
  have key : pmin ≤ (shiftDownAny pmax (shiftUpAny pmin L2)).getD i 0 ∧
      (shiftDownAny pmax (shiftUpAny pmin L2)).getD i 0 < pmax ∧
      ∃ K : ℤ, (shiftDownAny pmax (shiftUpAny pmin L2)).getD i 0
        = phi.getD i 0 + 2 * π * K := by
    by_cases hy : L2.getD i 0 < pmin
    · obtain ⟨⟨k, hk⟩, hge, hub⟩ := up2 hy
      have hzlt : (shiftUpAny pmin L2).getD i 0 < pmax := by linarith
      have hw := dn1 hzlt
      refine ⟨by rw [hw]; exact hge, by rw [hw]; exact hzlt,
        ⟨(m1 : ℤ) - m2 + k, ?_⟩⟩
      rw [hw, hk, hx2]
      push_cast
      ring
    · push_neg at hy
      have hz := up1 hy
      by_cases hyy : L2.getD i 0 < pmax
      · have hw := dn1 (by rw [hz]; exact hyy)
        rw [hw, hz]
        refine ⟨hy, hyy, ⟨(m1 : ℤ) - m2, ?_⟩⟩
        rw [hx2]
        push_cast
        ring
      · push_neg at hyy
        obtain ⟨⟨k, hk⟩, hge, hub⟩ := dn2 (by rw [hz]; exact hyy)
        rw [hz] at hk
        refine ⟨by linarith, hub, ⟨(m1 : ℤ) - m2 - k, ?_⟩⟩
        rw [hk, hx2]
        push_cast
        ring
  obtain ⟨hge, hlt, K, hK⟩ := key
  unfold aziFormula
  rw [hspan]
  exact two_pi_rep_unique K hK hge (by linarith)

/-- C5, counterexample: the loops always step by `2π`, not by
`phi_max - phi_min`.  With bounds `(0, π)` and input `[3π/2]` the code
terminates with `[-π/2]` (outside `[0, π)`), while the claimed formula
`((phi - phi_min) mod (phi_max - phi_min)) + phi_min` gives `π/2`. -/
theorem c5_counterexample :
    aziStage [3 * π / 2] 0 π = some [-(π / 2)] ∧
    aziFormula 0 π (3 * π / 2) = π / 2 ∧
    (-(π / 2) : ℝ) ≠ π / 2 := by
  have hpi := Real.pi_pos
  refine ⟨?_, ?_, by intro h; linarith⟩
  · have s1 : shiftUpAll 0 [3 * π / 2] = some [3 * π / 2] := by
      rw [shiftUpAll, if_neg]
      intro hc
      have := hc (3 * π / 2) (by simp)
      linarith
    have s2 : shiftDownAll π [3 * π / 2] = some [-(π / 2)] := by
      rw [shiftDownAll, if_pos]
      · simp only [List.map_cons, List.map_nil]
        rw [show 3 * π / 2 - 2 * π = -(π / 2) from by ring]
        rw [shiftDownAll, if_neg]
        intro hc
        have := hc (-(π / 2)) (by simp)
        linarith
      · intro y hy
        simp at hy
        subst hy
        linarith
    have s3 : shiftUpAny 0 [-(π / 2)] = [3 * π / 2] := by
      rw [shiftUpAny, if_pos ⟨-(π / 2), by simp, by linarith⟩]
      have hstep : stepUp 0 [-(π / 2)] = [3 * π / 2] := by
        unfold stepUp
        simp only [List.map_cons, List.map_nil, if_pos (show -(π / 2) < (0:ℝ) by linarith)]
        rw [show -(π / 2) + 2 * π = 3 * π / 2 from by ring]
      rw [hstep, shiftUpAny, if_neg]
      rintro ⟨y, hy, hlt⟩
      simp at hy
      subst hy
      linarith
    have s4 : shiftDownAny π [3 * π / 2] = [-(π / 2)] := by
      rw [shiftDownAny, if_pos ⟨3 * π / 2, by simp, by linarith⟩]
      have hstep : stepDown π [3 * π / 2] = [-(π / 2)] := by
        unfold stepDown
        simp only [List.map_cons, List.map_nil, if_pos (show π ≤ 3 * π / 2 by linarith)]
        rw [show 3 * π / 2 - 2 * π = -(π / 2) from by ring]
      rw [hstep, shiftDownAny, if_neg]
      rintro ⟨y, hy, hlt⟩
      simp at hy
      subst hy
      linarith
    unfold aziStage
    rw [s1]
    show (match shiftDownAll π [3 * π / 2] with
      | none => none
      | some l2 => some (shiftDownAny π (shiftUpAny 0 l2))) = some [-(π / 2)]
    rw [s2]
    show some (shiftDownAny π (shiftUpAny 0 [-(π / 2)])) = some [-(π / 2)]
    rw [s3, s4]
  · unfold aziFormula
    have harg : (3 * π / 2 - 0) / (π - 0) = 3 / 2 := by
      field_simp
      ring
    rw [harg, show ⌊(3:ℝ) / 2⌋ = 1 from by norm_num [Int.floor_eq_iff]]
    push_cast
    ring

/-- C5, amended: on a nonempty azimuth array the folding in `sphadj`
terminates for any bounds (on an empty array the vacuously true `.all()`
guard of the first loop never exits), but it steps by `2π` rather than by
the bound span, so the claimed closed form
`((phi - phi_min) mod (phi_max - phi_min)) + phi_min` is produced exactly
when `phi_max - phi_min = 2π` (in particular for the default bounds
`(-π, π)`); under that span condition it holds element-wise, and
consequently `aziadj(phi + 2π·k) = aziadj(phi)` for every integer `k`. -/
theorem c5_amended (pmin pmax : ℝ) (phi : List ℝ) (x : ℝ) (k : ℤ)
    (hspan : pmax - pmin = 2 * π) (hne : phi ≠ []) :
    aziStage phi pmin pmax = some (phi.map (aziFormula pmin pmax)) ∧
    aziadjArr [x + 2 * π * k] = aziadjArr [x] := by
  refine ⟨aziStage_eq_formula pmin pmax hspan phi hne, ?_⟩
  unfold aziadjArr
  rw [aziStage_eq_formula (-π) π (by ring) _ (by simp),
    aziStage_eq_formula (-π) π (by ring) _ (by simp)]
  have h2pi : (2:ℝ) * π ≠ 0 := by positivity
  have hper : aziFormula (-π) π (x + 2 * π * k) = aziFormula (-π) π x := by
    unfold aziFormula
    rw [show π - -π = 2 * π from by ring]
    have harg : (x + 2 * π * k - -π) / (2 * π) = (x - -π) / (2 * π) + k := by
      field_simp
      ring
    rw [harg, Int.floor_add_int]
    push_cast
    ring
  rw [List.map_cons, List.map_cons, hper]

/-- C5, witness for the amended statement: default bounds `(-π, π)` span
`2π`; evaluated at `phi = [0]`, `x = 0`, `k = 1`. -/
theorem c5_amended_witness :
    (π - -π = 2 * π) ∧
    (aziStage [0] (-π) π = some ([(0:ℝ)].map (aziFormula (-π) π)) ∧
     aziadjArr [0 + 2 * π * (1:ℤ)] = aziadjArr [0]) :=
  ⟨by ring, c5_amended (-π) π [0] 0 1 (by ring) (by simp)⟩

/-- Helper: the scalar azimuth loops on an input in `(-π, 2π]` with the
default bounds succeed and land in `[-π, π)` preserving sine and cosine. -/
theorem aziAdj1_default {p : ℝ} (h1 : -π < p) (h2 : p ≤ 2 * π) :
    ∃ q, aziAdj1 p (-π) π = some q ∧ -π ≤ q ∧ q < π ∧
      Real.sin q = Real.sin p ∧ Real.cos q = Real.cos p := by
  have hpi := Real.pi_pos
  have hup : foldUp (-π) p = p := foldUp_of_not_lt (by linarith)
  by_cases hp : p < π
  · have hdn : foldDown π p = p := foldDown_of_lt hp
    refine ⟨p, ?_, by linarith, hp, rfl, rfl⟩
    unfold aziAdj1
    rw [hup, hdn, if_neg (not_lt.2 (le_of_lt h1))]
  · push_neg at hp
    have hdn : foldDown π p = p - 2 * π := by
      rw [foldDown_of_le hp, foldDown_of_lt (by linarith : p - 2 * π < π)]
    refine ⟨p - 2 * π, ?_, by linarith, by linarith, ?_, ?_⟩
    · unfold aziAdj1
      rw [hup, hdn, if_neg (not_lt.2 (by linarith : -π ≤ p - 2 * π))]
    · rw [Real.sin_sub_two_pi]
    · rw [Real.cos_sub_two_pi]

/-- Helper: the scalar elevation branch with default bounds keeps an
in-range elevation in `[-π/2, π/2]` and either returns `phi` or `phi + π`. -/
theorem eleAdj1_default {t : ℝ} (p : ℝ) (ht1 : -(π / 2) ≤ t) (ht2 : t ≤ π / 2) :
    ∃ t2 p2, eleAdj1 t p (-(π / 2)) (π / 2) = (t2, p2) ∧
      -(π / 2) ≤ t2 ∧ t2 ≤ π / 2 ∧ (p2 = p ∨ p2 = p + π) := by
  have hpi := Real.pi_pos
  unfold eleAdj1
  by_cases h : π / 2 ≤ t
  · have ht : t = π / 2 := le_antisymm ht2 h
    rw [if_pos h]
    refine ⟨π - t, _, rfl, by rw [ht]; linarith, by rw [ht]; linarith, ?_⟩
    by_cases hp : p ≠ 0
    · rw [if_pos hp]
      right
      rfl
    · rw [if_neg hp]
      left
      rfl
  · rw [if_neg h, if_neg (not_lt.2 ht1)]
    exact ⟨t, p, rfl, ht1, le_of_not_le h, Or.inl rfl⟩

/-- Helper: scalar `sphadj` with default bounds on `t ∈ [-π/2, π/2]`,
`p ∈ (-π, π]` succeeds with elevation in `[-π/2, π/2]` and azimuth in
`[-π, π)`. -/
theorem sphadj1_default {t p : ℝ} (ht1 : -(π / 2) ≤ t) (ht2 : t ≤ π / 2)
    (hp1 : -π < p) (hp2 : p ≤ π) :
    ∃ t2 q, sphadj1 t p (-(π / 2)) (π / 2) (-π) π = some (t2, q) ∧
      -(π / 2) ≤ t2 ∧ t2 ≤ π / 2 ∧ -π ≤ q ∧ q < π := by
  have hpi := Real.pi_pos
  obtain ⟨t2, p2, he, h1, h2, hp'⟩ := eleAdj1_default p ht1 ht2
  have hr1 : -π < p2 := by
    rcases hp' with rfl | rfl <;> linarith
  have hr2 : p2 ≤ 2 * π := by
    rcases hp' with rfl | rfl <;> linarith
  obtain ⟨q, ha, hq1, hq2, _, _⟩ := aziAdj1_default hr1 hr2
  refine ⟨t2, q, ?_, h1, h2, hq1, hq2⟩
  unfold sphadj1
  rw [he]
  simp only
  rw [ha]

/-- Helper: the azimuth computed by `vec2sph` lies in `(-π, π]`. -/
theorem arctan2_mem_Ioc (y x : ℝ) : -π < arctan2 y x ∧ arctan2 y x ≤ π := by
  have := Complex.arg_mem_Ioc (⟨x, y⟩ : ℂ)
  exact ⟨this.1, this.2⟩

/-- C7: on any single 3-vector — including the zero vector, where the
zero radius is replaced by `1` before normalising — `vec2sph` terminates
without error and returns a finite triple with elevation in
`[-π/2, π/2]` and azimuth in `[-π, π)`; on the zero vector it returns
`(0, 0, 1)` exactly. -/
theorem c7_vec2sph_total_and_in_range :
    vec2sphSingle (0, 0, 0) = some (0, 0, 1) ∧
    ∀ v : ℝ × ℝ × ℝ, ∃ t p r, vec2sphSingle v = some (t, p, r) ∧
      -(π / 2) ≤ t ∧ t ≤ π / 2 ∧ -π ≤ p ∧ p < π := by
  have hpi := Real.pi_pos
  constructor
  · have hn : norm3 (0, 0, 0) = 0 := by
      unfold norm3
      simp
    have harg : arctan2 0 0 = 0 := by
      unfold arctan2
      rw [show (⟨0, 0⟩ : ℂ) = (0 : ℂ) from rfl, Complex.arg_zero]
    have hth : π / 2 - Real.arccos (0:ℝ) = 0 := by
      rw [Real.arccos_zero]
      ring
    have hsp : sphadj1 0 0 (-(π / 2)) (π / 2) (-π) π = some (0, 0) := by
      have hele : eleAdj1 0 0 (-(π / 2)) (π / 2) = (0, 0) := by
        unfold eleAdj1
        rw [if_neg (by linarith), if_neg (by linarith)]
      have hazi : aziAdj1 0 (-π) π = some 0 := by
        unfold aziAdj1
        rw [foldUp_of_not_lt (by linarith), foldDown_of_lt (by linarith),
          if_neg (by linarith)]
      unfold sphadj1
      rw [hele]
      simp only
      rw [hazi]
    unfold vec2sphSingle
    rw [hn]
    simp only [zero_div, if_pos (rfl : (0:ℝ) = 0)]
    rw [hth, harg, hsp]
    simp
  · intro v
    set rho := if norm3 v = 0 then 1 else norm3 v with hrho
    have ht0 : -(π / 2) ≤ π / 2 - Real.arccos (v.2.2 / rho) ∧
        π / 2 - Real.arccos (v.2.2 / rho) ≤ π / 2 := by
      constructor
      · have := Real.arccos_le_pi (v.2.2 / rho)
        linarith
      · have := Real.arccos_nonneg (v.2.2 / rho)
        linarith
    obtain ⟨hp1, hp2⟩ := arctan2_mem_Ioc (v.1 / rho) (v.2.1 / rho)
    obtain ⟨t2, q, hsp, h1, h2, h3, h4⟩ := sphadj1_default ht0.1 ht0.2 hp1 hp2
    refine ⟨t2, q, rho, ?_, h1, h2, h3, h4⟩
    show (match sphadj1 (π / 2 - Real.arccos (v.2.2 / rho))
        (arctan2 (v.1 / rho) (v.2.1 / rho)) (-(π / 2)) (π / 2) (-π) π with
      | none => none
      | some (t, p) => some (t, p, rho)) = some (t2, q, rho)
    rw [hsp]


/-- C8: `vec2sph((1,0,0))` returns `θ = 0, φ = π/2, ρ = 1` — azimuth
measured from the y-axis — and `sph2vec((0, π/2, 1))` reproduces
`(1, 0, 0)` via `x = ρ·sin φ·cos θ`, `y = ρ·cos φ·cos θ`, `z = ρ·sin θ`. -/
theorem c8_axis_convention :
    vec2sphSingle (1, 0, 0) = some (0, π / 2, 1) ∧
    sph2vec3 0 (π / 2) 1 = (1, 0, 0) := by
  have hpi := Real.pi_pos
  constructor
  · have hn : norm3 (1, 0, 0) = 1 := by
      unfold norm3
      simp
    have harg : arctan2 1 0 = π / 2 := by
      unfold arctan2
      rw [show (⟨0, 1⟩ : ℂ) = Complex.I from rfl, Complex.arg_I]
    have hth : π / 2 - Real.arccos (0:ℝ) = 0 := by
      rw [Real.arccos_zero]
      ring
    have hsp : sphadj1 0 (π / 2) (-(π / 2)) (π / 2) (-π) π = some (0, π / 2) := by
      have hele : eleAdj1 0 (π / 2) (-(π / 2)) (π / 2) = (0, π / 2) := by
        unfold eleAdj1
        rw [if_neg (by linarith), if_neg (by linarith)]
      have hazi : aziAdj1 (π / 2) (-π) π = some (π / 2) := by
        unfold aziAdj1
        rw [foldUp_of_not_lt (by linarith), foldDown_of_lt (by linarith),
          if_neg (by linarith)]
      unfold sphadj1
      rw [hele]
      simp only
      rw [hazi]
    unfold vec2sphSingle
    rw [hn]
    simp only [ite_self, div_one]
    rw [hth, harg, hsp]
  · unfold sph2vec3
    rw [Real.sin_pi_div_two, Real.cos_pi_div_two, Real.sin_zero, Real.cos_zero]
    norm_num


set_option maxHeartbeats 1000000

/-- Helper: `vec2sph` on a single vector of nonzero norm, with the radius
guard discharged. -/
theorem vec2sphSingle_of_ne {a b c : ℝ} (h : norm3 (a, b, c) ≠ 0) :
    vec2sphSingle (a, b, c)
      = (match sphadj1 (π / 2 - Real.arccos (c / norm3 (a, b, c)))
          (arctan2 (a / norm3 (a, b, c)) (b / norm3 (a, b, c)))
          (-(π / 2)) (π / 2) (-π) π with
        | none => none
        | some (t, p) => some (t, p, norm3 (a, b, c))) := by
  unfold vec2sphSingle
  simp only [if_neg h]

/-- C1, amended: for a single 3-vector `v` with `‖v‖ = ρ > 0`,
`sph2vec(vec2sph(v))` reconstructs `v` exactly over real arithmetic (the
batch form of the claim fails: see the counterexample — `vec2sph` on an
N×3 array mis-broadcasts the normalisation and raises for N ∉ {1, 3}). -/
theorem c1_amended (v : ℝ × ℝ × ℝ) (hv : 0 < norm3 v) :
    ∃ t p r, vec2sphSingle v = some (t, p, r) ∧ r = norm3 v ∧
      sph2vec3 t p r = v := by
  obtain ⟨a, b, c⟩ := v
  have hpi := Real.pi_pos
  have hρ : norm3 (a, b, c) ≠ 0 := ne_of_gt hv
  have hρsq : norm3 (a, b, c) ^ 2 = a ^ 2 + b ^ 2 + c ^ 2 := by
    unfold norm3
    rw [Real.sq_sqrt (by positivity)]
  have hsum : (a / norm3 (a, b, c)) ^ 2 + (b / norm3 (a, b, c)) ^ 2
      + (c / norm3 (a, b, c)) ^ 2 = 1 := by
    field_simp
    linarith [hρsq]
  have hC1 : c / norm3 (a, b, c) ≤ 1 := by nlinarith
  have hCm1 : -1 ≤ c / norm3 (a, b, c) := by nlinarith
  rw [vec2sphSingle_of_ne hρ]
  by_cases hCtop : c / norm3 (a, b, c) = 1
  · -- north pole: the elevation equals π/2 and is folded to π - π/2
    have hab : (a / norm3 (a, b, c)) = 0 ∧ (b / norm3 (a, b, c)) = 0 := by
      constructor <;> nlinarith
    have ha0 : a = 0 := by
      rcases div_eq_zero_iff.1 hab.1 with h | h
      · exact h
      · exact absurd h hρ
    have hb0 : b = 0 := by
      rcases div_eq_zero_iff.1 hab.2 with h | h
      · exact h
      · exact absurd h hρ
    have hcρ : c = norm3 (a, b, c) := by
      field_simp at hCtop
      exact hCtop
    have hT : π / 2 - Real.arccos (c / norm3 (a, b, c)) = π / 2 := by
      rw [hCtop, Real.arccos_one]
      ring
    have hΦ : arctan2 (a / norm3 (a, b, c)) (b / norm3 (a, b, c)) = 0 := by
      rw [hab.1, hab.2]
      unfold arctan2
      rw [show (⟨0, 0⟩ : ℂ) = (0 : ℂ) from rfl, Complex.arg_zero]
    have hsp : sphadj1 (π / 2) 0 (-(π / 2)) (π / 2) (-π) π
        = some (π - π / 2, 0) := by
      have hele : eleAdj1 (π / 2) 0 (-(π / 2)) (π / 2) = (π - π / 2, 0) := by
        unfold eleAdj1
        rw [if_pos (le_refl (π / 2)), if_neg (fun h => h rfl)]
      have hazi : aziAdj1 0 (-π) π = some 0 := by
        unfold aziAdj1
        rw [foldUp_of_not_lt (by linarith), foldDown_of_lt (by linarith),
          if_neg (by linarith)]
      unfold sphadj1
      rw [hele]
      simp only
      rw [hazi]
    rw [hT, hΦ, hsp]
    refine ⟨π - π / 2, 0, norm3 (a, b, c), rfl, rfl, ?_⟩
    unfold sph2vec3
    rw [Real.sin_pi_sub, Real.cos_pi_sub, Real.sin_pi_div_two,
      Real.cos_pi_div_two, Real.sin_zero, Real.cos_zero]
    simp only [Prod.mk.injEq]
    refine ⟨by rw [ha0]; ring, by rw [hb0]; ring, by rw [← hcρ]; ring⟩
  · -- elevation strictly below π/2: no fold
    have hγpos : 0 < Real.arccos (c / norm3 (a, b, c)) :=
      Real.arccos_pos.2 (lt_of_le_of_ne hC1 hCtop)
    have hγle : Real.arccos (c / norm3 (a, b, c)) ≤ π := Real.arccos_le_pi _
    have hele : eleAdj1 (π / 2 - Real.arccos (c / norm3 (a, b, c)))
        (arctan2 (a / norm3 (a, b, c)) (b / norm3 (a, b, c)))
        (-(π / 2)) (π / 2)
        = (π / 2 - Real.arccos (c / norm3 (a, b, c)),
           arctan2 (a / norm3 (a, b, c)) (b / norm3 (a, b, c))) := by
      unfold eleAdj1
      rw [if_neg (by linarith), if_neg (by linarith)]
    obtain ⟨hΦ1, hΦ2⟩ :=
      arctan2_mem_Ioc (a / norm3 (a, b, c)) (b / norm3 (a, b, c))
    obtain ⟨q, haz, hq1, hq2, hqsin, hqcos⟩ :=
      aziAdj1_default hΦ1 (le_trans hΦ2 (by linarith))
    have hsp : sphadj1 (π / 2 - Real.arccos (c / norm3 (a, b, c)))
        (arctan2 (a / norm3 (a, b, c)) (b / norm3 (a, b, c)))
        (-(π / 2)) (π / 2) (-π) π
        = some (π / 2 - Real.arccos (c / norm3 (a, b, c)), q) := by
      unfold sphadj1
      rw [hele]
      simp only
      rw [haz]
    rw [hsp]
    refine ⟨_, q, norm3 (a, b, c), rfl, rfl, ?_⟩
    have hsinT : Real.sin (π / 2 - Real.arccos (c / norm3 (a, b, c)))
        = c / norm3 (a, b, c) := by
      rw [Real.sin_pi_div_two_sub, Real.cos_arccos hCm1 hC1]
    have hcosT : Real.cos (π / 2 - Real.arccos (c / norm3 (a, b, c)))
        = Real.sqrt (1 - (c / norm3 (a, b, c)) ^ 2) := by
      rw [Real.cos_pi_div_two_sub, Real.sin_arccos]
    have habs : Complex.abs ⟨b / norm3 (a, b, c), a / norm3 (a, b, c)⟩
        = Real.sqrt (1 - (c / norm3 (a, b, c)) ^ 2) := by
      rw [Complex.abs_apply, Complex.normSq_mk]
      congr 1
      nlinarith [hsum]
    have hsinΦ : Real.sin (arctan2 (a / norm3 (a, b, c)) (b / norm3 (a, b, c)))
        = (a / norm3 (a, b, c)) / Real.sqrt (1 - (c / norm3 (a, b, c)) ^ 2) := by
      unfold arctan2
      rw [Complex.sin_arg, habs]
    by_cases hab : (a / norm3 (a, b, c)) = 0 ∧ (b / norm3 (a, b, c)) = 0
    · -- south pole: z = -1, the horizontal components vanish
      have hfac : (c / norm3 (a, b, c) - 1) * (c / norm3 (a, b, c) + 1) = 0 := by
        nlinarith [hsum, hab.1, hab.2]
      have hCneg : c / norm3 (a, b, c) = -1 := by
        rcases mul_eq_zero.1 hfac with h | h
        · exact absurd (by linarith : c / norm3 (a, b, c) = 1) hCtop
        · linarith
      have hcosT0 : Real.cos (π / 2 - Real.arccos (c / norm3 (a, b, c))) = 0 := by
        rw [hcosT, hCneg]
        norm_num
      have ha0 : a = 0 := by
        rcases div_eq_zero_iff.1 hab.1 with h | h
        · exact h
        · exact absurd h hρ
      have hb0 : b = 0 := by
        rcases div_eq_zero_iff.1 hab.2 with h | h
        · exact h
        · exact absurd h hρ
      unfold sph2vec3
      rw [hcosT0, hsinT]
      simp only [Prod.mk.injEq]
      refine ⟨by rw [ha0]; ring, by rw [hb0]; ring, ?_⟩
      field_simp
    · -- generic direction
      have hz : (⟨b / norm3 (a, b, c), a / norm3 (a, b, c)⟩ : ℂ) ≠ 0 := by
        intro h
        exact hab ⟨congrArg Complex.im h, congrArg Complex.re h⟩
      have hspos2 : 0 < 1 - (c / norm3 (a, b, c)) ^ 2 := by
        rcases not_and_or.1 hab with h | h
        · nlinarith [hsum, pow_two_pos_of_ne_zero h]
        · nlinarith [hsum, pow_two_pos_of_ne_zero h]
      have hs : Real.sqrt (1 - (c / norm3 (a, b, c)) ^ 2) ≠ 0 :=
        ne_of_gt (Real.sqrt_pos.2 hspos2)
      have hcosΦ : Real.cos (arctan2 (a / norm3 (a, b, c)) (b / norm3 (a, b, c)))
          = (b / norm3 (a, b, c)) / Real.sqrt (1 - (c / norm3 (a, b, c)) ^ 2) := by
        unfold arctan2
        rw [Complex.cos_arg hz, habs]
      unfold sph2vec3
      rw [hsinT, hcosT, hqsin, hqcos, hsinΦ, hcosΦ]
      simp only [Prod.mk.injEq]
      refine ⟨?_, ?_, ?_⟩
      · rw [div_mul_cancel₀ _ hs, mul_div_cancel₀ _ hρ]
      · rw [div_mul_cancel₀ _ hs, mul_div_cancel₀ _ hρ]
      · rw [mul_div_cancel₀ _ hρ]

/-- C1, witness for the amended statement at `v = (1, 0, 0)`. -/
theorem c1_amended_witness :
    0 < norm3 (1, 0, 0) ∧
    ∃ t p r, vec2sphSingle (1, 0, 0) = some (t, p, r) ∧ r = norm3 (1, 0, 0) ∧
      sph2vec3 t p r = (1, 0, 0) := by
  have hn : norm3 (1, 0, 0) = 1 := by
    unfold norm3
    simp
  exact ⟨by rw [hn]; norm_num, c1_amended (1, 0, 0) (by rw [hn]; norm_num)⟩


/-- C1, counterexample (batch half of the claim): a 2×3 batch whose rows
both have positive norm makes `vec2sph` raise — `la.norm(vec, axis=-1)`
has shape `(2,)` and `vec / rho` cannot broadcast `(2,3)` against `(2,)` —
so there is no output for `sph2vec` to reconstruct. -/
theorem c1_counterexample :
    norm3 (1, 0, 0) = 1 ∧ norm3 (0, 2, 0) = 2 ∧
    vec2sphBatch [(1, 0, 0), (0, 2, 0)] = none := by
  refine ⟨?_, ?_, ?_⟩
  · unfold norm3
    simp
  · unfold norm3
    rw [show ((0:ℝ) ^ 2 + 2 ^ 2 + 0 ^ 2) = 2 ^ 2 from by norm_num,
      Real.sqrt_sq (by norm_num : (0:ℝ) ≤ 2)]
  · unfold vec2sphBatch
    simp

/-- C2: `vec2sph` on a 2×3 batch raises a numpy broadcast error
(`(2,3)` against `(2,)`), modelled as `none`, instead of returning the
row-wise results the claim requires. -/
theorem c2_batch_vec2sph_raises :
    vec2sphBatch [(1, 0, 0), (0, 1, 0)] = none := by
  unfold vec2sphBatch
  simp

end
